import Mathlib

/-!
Verification of the beat-synchronized audio analysis and playback engine.

This file gives a shallow embedding of the tempo analyzer (`bpmAnalyzer`:
`analyzeBpmSegments`, `smoothSegments`, `getBpmAtTime`, the `analyzeBpm`
assembly step) and of the playback scheduler (`calculateRoundBpm`,
`calculatePlaybackSpeed`, `updateBpmFromAudio`, `playSequence`, `startBeat`,
`stopBeat`'s relevant parts), and proves the spec's claims about them.

Modelling conventions:
* JavaScript numbers are modelled as exact rationals (`ℚ`).
* `Math.round` rounds half toward positive infinity: `⌊x + 1/2⌋`.
* `Array.prototype.sort` with the ascending numeric comparator is modelled by
  `List.insertionSort (· ≤ ·)` (any stable ascending sort; only the sorted
  order of a list of rationals is observable here).
* The octave-folding loops `while (bpm < 80) bpm *= 2` and
  `while (bpm > 180) bpm /= 2` are modelled with an explicit iteration budget
  (`foldUp`/`foldDown`), which is proved sufficient for every positive input;
  for non-positive inputs the source loops do not terminate (for a zero
  inter-peak median the raw bpm is `60/0`), and the budgeted model then
  returns its argument after the budget runs out.
* Timers are modelled as optional armed intervals; DOM/React side effects
  (state setters, audio element fields, toasts) are fields of an explicit
  state record.
-/

/-- JS `Math.round`: round half toward positive infinity. -/
def jsRound (q : ℚ) : ℤ := ⌊q + 1/2⌋

/-- A contiguous time window with one estimated constant tempo
(source interface `BpmSegment`). -/
structure BpmSegment where
  startTime : ℚ
  endTime : ℚ
  bpm : ℚ
  deriving DecidableEq, Repr

/-- Result of the tempo analyzer (source interface `BpmAnalysisResult`). -/
structure BpmAnalysisResult where
  segments : List BpmSegment
  averageBpm : ℚ
  silenceOffset : ℚ
  deriving DecidableEq, Repr

/-- Source `getBpmAtTime`: linear scan for the first segment with
`startTime <= time < endTime`; otherwise `segments[segments.length - 1]?.bpm || 120`
(the `||` turns a falsy bpm — `0`, or `undefined` on an empty list — into `120`). -/
def getBpmAtTime (segments : List BpmSegment) (time : ℚ) : ℚ :=
  match segments.find? (fun seg => decide (seg.startTime ≤ time) && decide (time < seg.endTime)) with
  | some seg => seg.bpm
  | none =>
    match segments.getLast? with
    | some seg => if seg.bpm = 0 then 120 else seg.bpm
    | none => 120

/-- The loop `while (bpm < 80) bpm *= 2`, with an explicit iteration budget.
The budget used by `octaveFold` is proved sufficient whenever `0 < bpm`. -/
def foldUp : ℕ → ℚ → ℚ
  | 0, bpm => bpm
  | fuel + 1, bpm => if bpm < 80 then foldUp fuel (bpm * 2) else bpm

/-- The loop `while (bpm > 180) bpm /= 2`, with an explicit iteration budget. -/
def foldDown : ℕ → ℚ → ℚ
  | 0, bpm => bpm
  | fuel + 1, bpm => if 180 < bpm then foldDown fuel (bpm / 2) else bpm

/-- Octave normalization of a raw bpm estimate, source lines
`while (bpm < 80) bpm *= 2; while (bpm > 180) bpm /= 2`.  The budgets
`7 + bpm.den` and `bpm.num.toNat` are proved large enough for positive `bpm`
(`foldUp_budget_sufficient`, `octaveFold` lemmas below). -/
def octaveFold (bpm : ℚ) : ℚ :=
  foldDown bpm.num.toNat (foldUp (7 + bpm.den) bpm)

/-- Inter-peak intervals: `intervals.push(segmentPeaks[j] - segmentPeaks[j-1])`. -/
def consecDiffs : List ℚ → List ℚ
  | a :: b :: rest => (b - a) :: consecDiffs (b :: rest)
  | _ => []

/-- One window of the segment-BPM estimation loop in `analyzeBpmSegments`:
with fewer than two peaks reuse the previous window's bpm, otherwise
`bpm = Math.round(octave-folded 60 / median inter-peak interval)`. -/
def segmentBpmEstimate (segmentPeaks : List ℚ) (prevBpm : ℚ) : ℚ :=
  if segmentPeaks.length < 2 then prevBpm
  else
    let intervals := consecDiffs segmentPeaks
    let sorted := intervals.insertionSort (· ≤ ·)
    let medianInterval := sorted.getD (sorted.length / 2) 0
    ((jsRound (octaveFold (60 / medianInterval)) : ℤ) : ℚ)

/-- The window loop of `analyzeBpmSegments`, indexed by the window numbers
(`List.range numSegments`), threading the previous window's bpm for the
fewer-than-two-peaks fallback (initially 120). -/
def buildSegments (peaks : List ℚ) (totalDuration : ℚ) : List ℕ → ℚ → List BpmSegment
  | [], _ => []
  | i :: rest, prevBpm =>
    let startTime : ℚ := (i : ℚ) * 8
    let endTime : ℚ := min (((i : ℚ) + 1) * 8) totalDuration
    let segmentPeaks := peaks.filter (fun p => decide (startTime ≤ p) && decide (p < endTime))
    let bpm := segmentBpmEstimate segmentPeaks prevBpm
    ⟨startTime, endTime, bpm⟩ :: buildSegments peaks totalDuration rest bpm

/-- The body of the smoothing loop in `smoothSegments` at one interior segment. -/
def smoothStep (prev curr next : BpmSegment) : BpmSegment :=
  let avgNeighbors := (prev.bpm + next.bpm) / 2
  if 10 < |curr.bpm - avgNeighbors| then { curr with bpm := ((jsRound avgNeighbors : ℤ) : ℚ) }
  else curr

/-- The smoothing loop `for (i = 1; i < length - 1; i++)`.  The loop mutates
the array in place, so the left neighbor read at step `i` is the already
updated element `i - 1`, while the right neighbor is still original; this is
captured by threading the updated previous element through the recursion.
The final element is never the current element of the loop, so it is returned
unchanged. -/
def smoothAux : BpmSegment → List BpmSegment → List BpmSegment
  | _, [] => []
  | _, [last] => [last]
  | prev, curr :: next :: rest =>
    let curr' := smoothStep prev curr next
    curr' :: smoothAux curr' (next :: rest)

/-- Source `smoothSegments`: lists of length at most 2 are returned unchanged,
otherwise one in-place pass over the interior segments. -/
def smoothSegments (segments : List BpmSegment) : List BpmSegment :=
  if segments.length ≤ 2 then segments
  else
    match segments with
    | [] => []
    | first :: rest => first :: smoothAux first rest

/-- `Math.max(1, Math.ceil(totalDuration / segmentDuration))` with
`segmentDuration = 8`. -/
def numSegments (totalDuration : ℚ) : ℕ :=
  max 1 (Int.toNat ⌈totalDuration / 8⌉)

/-- Source `analyzeBpmSegments` (its `sampleRate` parameter is unused in the
source and therefore omitted): build the fixed 8-second windows, then smooth. -/
def analyzeBpmSegments (peaks : List ℚ) (totalDuration : ℚ) : List BpmSegment :=
  smoothSegments (buildSegments peaks totalDuration (List.range (numSegments totalDuration)) 120)

/-- The assembly step of source `analyzeBpm` after peak detection:
`averageBpm = Math.round(segments.reduce((sum, seg) => sum + seg.bpm, 0) / segments.length)`.
Decoding, filtering and peak detection over the raw signal are the caller's
(Web Audio) side; this function takes their output, the peak timestamp list. -/
def analyzeBpmFromPeaks (peaks : List ℚ) (totalDuration : ℚ) (silenceOffset : ℚ) :
    BpmAnalysisResult :=
  let segments := analyzeBpmSegments peaks totalDuration
  { segments := segments
    averageBpm :=
      ((jsRound ((segments.foldl (fun sum seg => sum + seg.bpm) 0) / (segments.length : ℚ)) : ℤ) : ℚ)
    silenceOffset := silenceOffset }

/-- The settings the scheduler reads (`currentBpm`, `currentBaseBpm`,
`currentBpmAnalysis`, …, plus whether a custom audio url / audio element is
present — `customAudio` and `audioRef.current` in the source). -/
structure Settings where
  customAudio : Bool
  hasAudioRef : Bool
  bpmAnalysis : Option BpmAnalysisResult
  currentBpm : ℚ
  currentBaseBpm : ℚ
  increaseSpeed : Bool
  speedIncreasePercent : ℚ
  currentRounds : ℕ
  countdownDuration : ℚ
  audioStartTime : ℚ
  deriving DecidableEq, Repr

/-- Source `calculateRoundBpm(roundNumber, audioTime?)`: detected segment bpm
times `currentBpm / currentBaseBpm` when custom audio, an analysis and an
audio position are all present, else the user bpm; then the round-based speed
multiplier when `increaseSpeed` is on. -/
def calculateRoundBpm (s : Settings) (roundNumber : ℚ) (audioTime : Option ℚ) : ℚ :=
  let effectiveBpm :=
    match s.bpmAnalysis, audioTime with
    | some analysis, some t =>
      if s.customAudio then
        getBpmAtTime analysis.segments t * (s.currentBpm / s.currentBaseBpm)
      else s.currentBpm
    | _, _ => s.currentBpm
  if s.increaseSpeed then
    effectiveBpm * (1 + s.speedIncreasePercent / 100 * (roundNumber - 1))
  else effectiveBpm

/-- Source `calculatePlaybackSpeed(roundNumber)`:
`basePlaybackSpeed = currentBpm / (customAudio ? currentBaseBpm : 91)`,
times the same round-based multiplier. -/
def calculatePlaybackSpeed (s : Settings) (roundNumber : ℚ) : ℚ :=
  let baseBpmValue : ℚ := if s.customAudio then s.currentBaseBpm else 91
  let basePlaybackSpeed := s.currentBpm / baseBpmValue
  if s.increaseSpeed then
    basePlaybackSpeed * (1 + s.speedIncreasePercent / 100 * (roundNumber - 1))
  else basePlaybackSpeed

/-- The mutable state of one playback session: the closure variables of
`beginPlayback` (`index`, `roundCount`, `currentIntervalBpm`,
`currentGridSize`), the two timer handles (modelled as the armed interval in
milliseconds), the React state the scheduler sets, and the active audio
element's observable fields. -/
structure GameState where
  index : ℤ
  roundCount : ℕ
  currentGridSize : ℕ
  currentIntervalBpm : ℚ
  mainTimer : Option ℚ
  pollTimer : Bool
  countdownTimer : Option ℚ
  isPlaying : Bool
  isFullscreen : Bool
  isFinished : Bool
  countdown : Option ℕ
  activeIndex : Option ℤ
  revealed : Finset ℤ
  currentRound : ℕ
  displayBpm : ℤ
  gridLen : ℕ
  audioPlaying : Bool
  audioCurrentTime : ℚ
  audioPlaybackRate : ℚ
  completionSoundPlayed : Bool
  configErrorReported : Bool
  deriving DecidableEq

/-- Source `updateBpmFromAudio` (the body of the 100ms poll): recompute the
effective bpm from the live audio position (`currentTime / playbackRate`),
always refresh the displayed bpm, and only when the recomputed bpm differs
from `currentIntervalBpm` by more than 1 tear down and rearm the main
advance timer at `(60 / newBpm) * 1000` ms. -/
def updateBpmFromAudio (s : Settings) (audioClock : ℚ) (st : GameState) : GameState :=
  if s.hasAudioRef && s.customAudio && s.bpmAnalysis.isSome then
    let audioTime := audioClock / st.audioPlaybackRate
    let newBpm := calculateRoundBpm s (st.roundCount : ℚ) (some audioTime)
    let st1 := { st with displayBpm := jsRound newBpm }
    if 1 < |newBpm - st.currentIntervalBpm| then
      { st1 with currentIntervalBpm := newBpm, mainTimer := some (60 / newBpm * 1000) }
    else st1
  else st

/-- Tail of source `playSequence` after the round-boundary block: bump
`roundCount` on the last grid index, set the active index and add it to the
revealed set. -/
def advanceTail (st : GameState) : GameState :=
  let st' :=
    if st.index = (st.currentGridSize : ℤ) - 1 then { st with roundCount := st.roundCount + 1 }
    else st
  { st' with activeIndex := some st'.index, revealed := insert st'.index st'.revealed }

/-- Source `playSequence` (one tick of the main advance timer).  `regenLen` is
the length of the sequence returned by the external `generateGridFromPool`
collaborator on a round transition (the scheduler only observes its length).
When the cursor wraps past `currentRounds` the function cancels both timers,
plays the completion sound and sets the finished flag, leaving the audio
element untouched. -/
def playSequence (s : Settings) (regenLen : ℕ) (st : GameState) : GameState :=
  let index := (st.index + 1) % (st.currentGridSize : ℤ)
  let st0 := { st with index := index }
  if index = 0 ∧ 1 < st0.roundCount then
    if s.currentRounds < st0.roundCount then
      { st0 with
        mainTimer := none
        pollTimer := false
        isPlaying := false
        activeIndex := none
        isFinished := true
        completionSoundPlayed := true }
    else
      let st1 := { st0 with
        gridLen := regenLen
        currentGridSize := regenLen
        revealed := ∅
        currentRound := st0.roundCount
        audioPlaybackRate :=
          if s.hasAudioRef then calculatePlaybackSpeed s (st0.roundCount : ℚ)
          else st0.audioPlaybackRate }
      let st2 :=
        if s.customAudio && s.bpmAnalysis.isSome then st1
        else
          let newBpm := calculateRoundBpm s (st0.roundCount : ℚ) none
          { st1 with displayBpm := jsRound newBpm, mainTimer := some (60 / newBpm * 1000) }
      advanceTail st2
  else advanceTail st0

/-- One firing opportunity of the main advance timer: `playSequence` runs only
while the timer is armed. -/
def mainTick (s : Settings) (regenLen : ℕ) (st : GameState) : GameState :=
  if st.mainTimer.isSome then playSequence s regenLen st else st

/-- One firing opportunity of the 100ms bpm-check poll timer. -/
def pollTick (s : Settings) (audioClock : ℚ) (st : GameState) : GameState :=
  if st.pollTimer then updateBpmFromAudio s audioClock st else st

/-- Source `startBeat`: no-op while already playing; a countdown duration
below 0.5s only reports a config error (`toast.error`) and aborts; otherwise
enter fullscreen, set round 1, start the active audio element at the custom
start time (else the analysis silence offset, else 0) at the round-1 playback
rate, and arm the 3-2-1 countdown at `Math.round(duration * 1000 / 3)` ms. -/
def startBeat (s : Settings) (st : GameState) : GameState :=
  if st.isPlaying then st
  else if s.countdownDuration < 1/2 then { st with configErrorReported := true }
  else
    let st1 := { st with isFullscreen := true, currentRound := 1 }
    let st2 :=
      if s.hasAudioRef then
        let startTime :=
          if s.customAudio ∧ 0 < s.audioStartTime then s.audioStartTime
          else
            match s.bpmAnalysis with
            | some analysis => if s.customAudio then analysis.silenceOffset else 0
            | none => 0
        { st1 with
          audioCurrentTime := startTime
          audioPlaybackRate := calculatePlaybackSpeed s 1
          audioPlaying := true }
      else st1
    let intervalTime := jsRound (s.countdownDuration * 1000 / 3)
    { st2 with countdown := some 3, countdownTimer := some ((intervalTime : ℤ) : ℚ) }

/-!
## Claim-shaped reference definitions

`specEffectiveBpm` states the spec's effective-BPM formula (§4.2) in its own
words, to be compared with the source's `calculateRoundBpm`.
-/

/-- The effective-BPM formula exactly as the spec states it: base case is the
user bpm; with an analysis of the custom audio and a position, the detected
segment bpm times `userBpm / baseBpm`; finally times
`1 + (speedIncreasePercent/100) * (roundNumber - 1)` when round-based speed
increase is enabled (multiplier 1 otherwise). -/
def specEffectiveBpm (s : Settings) (roundNumber : ℚ) (audioTime : Option ℚ) : ℚ :=
  (match s.bpmAnalysis, audioTime with
   | some analysis, some t =>
     if s.customAudio then
       getBpmAtTime analysis.segments t * (s.currentBpm / s.currentBaseBpm)
     else s.currentBpm
   | _, _ => s.currentBpm) *
  (if s.increaseSpeed then 1 + s.speedIncreasePercent / 100 * (roundNumber - 1) else 1)

/-- A concrete analysis value used to instantiate universally quantified
theorems (two segments, a tempo step from 100 to 130 bpm at 8s). -/
def demoAnalysis : BpmAnalysisResult :=
  { segments := [⟨0, 8, 100⟩, ⟨8, 10, 130⟩], averageBpm := 115, silenceOffset := 0 }

/-- Concrete settings used to instantiate universally quantified theorems. -/
def demoSettings : Settings :=
  { customAudio := true
    hasAudioRef := true
    bpmAnalysis := some demoAnalysis
    currentBpm := 100
    currentBaseBpm := 100
    increaseSpeed := false
    speedIncreasePercent := 5
    currentRounds := 3
    countdownDuration := 2
    audioStartTime := 0 }

/-- A concrete mid-playback state used to instantiate universally quantified
theorems. -/
def demoState : GameState :=
  { index := 0
    roundCount := 1
    currentGridSize := 8
    currentIntervalBpm := 100
    mainTimer := some 600
    pollTimer := true
    countdownTimer := none
    isPlaying := true
    isFullscreen := true
    isFinished := false
    countdown := none
    activeIndex := some 0
    revealed := {0}
    currentRound := 1
    displayBpm := 100
    gridLen := 8
    audioPlaying := true
    audioCurrentTime := 0
    audioPlaybackRate := 1
    completionSoundPlayed := false
    configErrorReported := false }

/-- Placeholder segment used as the (never relevant) default of indexed
lookups in theorem statements. -/
def defaultSegment : BpmSegment := ⟨0, 0, 0⟩

/-!
## Claims
-/

/-- Claim C1: `calculateRoundBpm` computes exactly the spec's effective-BPM
formula — detected-segment bpm times `userBpm / baseBpm` when a custom-audio
analysis and a position are present, else the user bpm, further multiplied by
`1 + (speedIncreasePercent/100) * (roundNumber - 1)` when round-based speed
increase is enabled — and at round 1 the enabled and disabled results
coincide (the multiplier is exactly 1). -/
theorem calculateRoundBpm_correct (s : Settings) (roundNumber : ℚ) (audioTime : Option ℚ) :
    calculateRoundBpm s roundNumber audioTime = specEffectiveBpm s roundNumber audioTime ∧
    calculateRoundBpm { s with increaseSpeed := true } 1 audioTime =
      calculateRoundBpm { s with increaseSpeed := false } 1 audioTime := by
  constructor
  · unfold calculateRoundBpm specEffectiveBpm
    cases s.bpmAnalysis <;> cases audioTime <;> cases hc : s.customAudio <;>
      cases hi : s.increaseSpeed <;> simp
  · unfold calculateRoundBpm
    cases s.bpmAnalysis <;> cases audioTime <;> cases hc : s.customAudio <;> simp

/-- Claim C10: on an empty segment list `getBpmAtTime` does not fail and
returns the default bpm 120, for every query time. -/
theorem getBpmAtTime_empty (time : ℚ) : getBpmAtTime [] time = 120 := rfl

/-- Claim C2: with a tempo analysis present during playback, one firing of the
100ms poll body rearms the main advance timer at the new beat interval
`(60 / newBpm) * 1000` exactly when the recomputed effective bpm differs from
the bpm the timer was armed with by more than 1; at a difference of at most 1
both the timer and the armed-with bpm are left untouched. -/
theorem updateBpm_rearm_iff (s : Settings) (audioClock : ℚ) (st : GameState)
    (href : s.hasAudioRef = true) (hca : s.customAudio = true)
    (ha : s.bpmAnalysis.isSome = true) :
    (1 < |calculateRoundBpm s (st.roundCount : ℚ) (some (audioClock / st.audioPlaybackRate)) -
        st.currentIntervalBpm| →
      (updateBpmFromAudio s audioClock st).mainTimer =
        some (60 / calculateRoundBpm s (st.roundCount : ℚ)
          (some (audioClock / st.audioPlaybackRate)) * 1000) ∧
      (updateBpmFromAudio s audioClock st).currentIntervalBpm =
        calculateRoundBpm s (st.roundCount : ℚ) (some (audioClock / st.audioPlaybackRate))) ∧
    (|calculateRoundBpm s (st.roundCount : ℚ) (some (audioClock / st.audioPlaybackRate)) -
        st.currentIntervalBpm| ≤ 1 →
      (updateBpmFromAudio s audioClock st).mainTimer = st.mainTimer ∧
      (updateBpmFromAudio s audioClock st).currentIntervalBpm = st.currentIntervalBpm) := by
  constructor
  · intro h
    simp [updateBpmFromAudio, href, hca, ha, h]
  · intro h
    simp [updateBpmFromAudio, href, hca, ha, not_lt.mpr h]

/-- Witness for C2 at concrete inputs: at audio clock 9s the detected segment
bpm is 130, which differs from the armed 100 by more than 1, so the poll
rearms the timer at `60/130*1000` ms. -/
theorem updateBpm_rearm_iff_witness :
    (updateBpmFromAudio demoSettings 9 demoState).mainTimer = some (60 / 130 * 1000) ∧
    (updateBpmFromAudio demoSettings 9 demoState).currentIntervalBpm = 130 := by
  have hbpm : calculateRoundBpm demoSettings ((demoState.roundCount : ℕ) : ℚ)
      (some (9 / demoState.audioPlaybackRate)) = 130 := by
    norm_num [calculateRoundBpm, getBpmAtTime, demoSettings, demoState, demoAnalysis]
  have h := (updateBpm_rearm_iff demoSettings 9 demoState rfl rfl rfl).1
    (by rw [hbpm]; norm_num [demoState])
  rwa [hbpm] at h

/-- Claim C9: a start request with a countdown duration below 0.5 seconds only
reports a config error and aborts the start attempt: the session stays idle
and every other observable — timers, audio, round and cursor state — is
unchanged. -/
theorem startBeat_configError (s : Settings) (st : GameState)
    (hidle : st.isPlaying = false) (hcd : s.countdownDuration < 1/2) :
    startBeat s st = { st with configErrorReported := true } ∧
    (startBeat s st).isPlaying = false ∧
    (startBeat s st).mainTimer = st.mainTimer ∧
    (startBeat s st).pollTimer = st.pollTimer ∧
    (startBeat s st).countdownTimer = st.countdownTimer ∧
    (startBeat s st).countdown = st.countdown ∧
    (startBeat s st).audioPlaying = st.audioPlaying ∧
    (startBeat s st).audioCurrentTime = st.audioCurrentTime ∧
    (startBeat s st).audioPlaybackRate = st.audioPlaybackRate ∧
    (startBeat s st).currentRound = st.currentRound ∧
    (startBeat s st).index = st.index ∧
    (startBeat s st).roundCount = st.roundCount ∧
    (startBeat s st).configErrorReported = true := by
  have h1 : startBeat s st = { st with configErrorReported := true } := by
    unfold startBeat
    rw [if_neg (by simp [hidle]), if_pos hcd]
  refine ⟨h1, ?_⟩
  rw [h1]
  simp [hidle]

/-- Witness for C9 at concrete inputs: countdown duration 0.3s on an idle
session. -/
theorem startBeat_configError_witness :
    startBeat { demoSettings with countdownDuration := 3/10 }
        { demoState with isPlaying := false } =
      { { demoState with isPlaying := false } with configErrorReported := true } := by
  exact (startBeat_configError { demoSettings with countdownDuration := 3/10 }
    { demoState with isPlaying := false } rfl (by norm_num)).1
/-- Claim C8: when the cursor would wrap past the configured total round
count, `playSequence` finishes the session: both the main advance timer and
the bpm-check poll timer are canceled and stay canceled (further timer firing
opportunities are no-ops, so no advance or reveal event fires), the
completion sound is played, the background audio track is left exactly as it
was (not paused, stopped or re-rated), and the finished flag is set. -/
theorem playSequence_finish (s : Settings) (regenLen : ℕ) (st : GameState)
    (hwrap : (st.index + 1) % (st.currentGridSize : ℤ) = 0)
    (hr1 : 1 < st.roundCount) (hr2 : s.currentRounds < st.roundCount) :
    (playSequence s regenLen st).mainTimer = none ∧
    (playSequence s regenLen st).pollTimer = false ∧
    (playSequence s regenLen st).isPlaying = false ∧
    (playSequence s regenLen st).activeIndex = none ∧
    (playSequence s regenLen st).isFinished = true ∧
    (playSequence s regenLen st).completionSoundPlayed = true ∧
    (playSequence s regenLen st).audioPlaying = st.audioPlaying ∧
    (playSequence s regenLen st).audioPlaybackRate = st.audioPlaybackRate ∧
    (playSequence s regenLen st).audioCurrentTime = st.audioCurrentTime ∧
    (playSequence s regenLen st).revealed = st.revealed ∧
    (∀ n : ℕ, (mainTick s regenLen)^[n] (playSequence s regenLen st) =
      playSequence s regenLen st) ∧
    (∀ (audioClock : ℚ) (n : ℕ), (pollTick s audioClock)^[n] (playSequence s regenLen st) =
      playSequence s regenLen st) := by
  have hfin : playSequence s regenLen st =
      { st with
        index := (st.index + 1) % (st.currentGridSize : ℤ)
        mainTimer := none
        pollTimer := false
        isPlaying := false
        activeIndex := none
        isFinished := true
        completionSoundPlayed := true } := by
    unfold playSequence
    simp [hwrap, hr1, hr2]
  rw [hfin]
  refine ⟨rfl, rfl, rfl, rfl, rfl, rfl, rfl, rfl, rfl, rfl, ?_, ?_⟩
  · intro n
    exact Function.iterate_fixed (by simp [mainTick]) n
  · intro audioClock n
    exact Function.iterate_fixed (by simp [pollTick]) n

/-- Witness for C8 at concrete inputs: index 7 of an 8-item grid with the
round counter at 4 and 3 configured rounds. -/
theorem playSequence_finish_witness :
    (playSequence demoSettings 8
        { demoState with index := 7, roundCount := 4 }).isFinished = true ∧
    (playSequence demoSettings 8
        { demoState with index := 7, roundCount := 4 }).mainTimer = none ∧
    (playSequence demoSettings 8
        { demoState with index := 7, roundCount := 4 }).pollTimer = false ∧
    (playSequence demoSettings 8
        { demoState with index := 7, roundCount := 4 }).audioPlaying = true := by
  have h := playSequence_finish demoSettings 8 { demoState with index := 7, roundCount := 4 }
    (by norm_num [demoState]) (by norm_num [demoState]) (by norm_num [demoSettings, demoState])
  exact ⟨h.2.2.2.2.1, h.1, h.2.1, by rw [h.2.2.2.2.2.2.1]; simp [demoState]⟩

/-- `List.find?` returns the element at the first index satisfying the
predicate. -/
theorem find?_eq_some_of_first {α : Type} (p : α → Bool) :
    ∀ (l : List α) (i : ℕ) (hi : i < l.length),
      p (l.get ⟨i, hi⟩) = true →
      (∀ (j : ℕ) (hj : j < i), p (l.get ⟨j, Nat.lt_trans hj hi⟩) = false) →
      l.find? p = some (l.get ⟨i, hi⟩)
  | a :: tl, 0, _, hp, _ => by
    simpa using List.find?_cons_of_pos tl (by simpa using hp)
  | a :: tl, i + 1, hi, hp, hfirst => by
    have ha : p a = false := by simpa using hfirst 0 (Nat.succ_pos i)
    have htl := find?_eq_some_of_first p tl i (Nat.lt_of_succ_lt_succ hi)
      (by simpa using hp) (fun j hj => by simpa using hfirst (j + 1) (Nat.succ_lt_succ hj))
    rw [List.find?_cons_of_neg tl (by simp [ha])]
    exact htl

/-- Claim C4 (amended): `getBpmAtTime` is total on non-empty segment lists:
it returns the bpm of the first segment with `startTime ≤ t < endTime`, and
when no segment contains `t` it returns the last segment's bpm — except that
a last bpm of `0` (JS falsy) is replaced by the default 120 by the source's
`|| 120`. -/
theorem getBpmAtTime_total (segs : List BpmSegment) (t : ℚ) (hne : segs ≠ []) (ht : 0 ≤ t) :
    (∀ (i : ℕ) (hi : i < segs.length),
      (segs.get ⟨i, hi⟩).startTime ≤ t ∧ t < (segs.get ⟨i, hi⟩).endTime →
      (∀ (j : ℕ) (hj : j < i),
        ¬((segs.get ⟨j, Nat.lt_trans hj hi⟩).startTime ≤ t ∧
          t < (segs.get ⟨j, Nat.lt_trans hj hi⟩).endTime)) →
      getBpmAtTime segs t = (segs.get ⟨i, hi⟩).bpm) ∧
    ((∀ (i : ℕ) (hi : i < segs.length),
        ¬((segs.get ⟨i, hi⟩).startTime ≤ t ∧ t < (segs.get ⟨i, hi⟩).endTime)) →
      getBpmAtTime segs t =
        if (segs.getLast hne).bpm = 0 then 120 else (segs.getLast hne).bpm) := by
  constructor
  · intro i hi hcontains hfirst
    have hfind := find?_eq_some_of_first
      (fun seg => decide (seg.startTime ≤ t) && decide (t < seg.endTime)) segs i hi
      (by simpa using hcontains)
      (fun j hj => by
        have h2 := hfirst j hj
        simp only [Bool.and_eq_false_iff, decide_eq_false_iff_not]
        exact not_and_or.mp h2)
    unfold getBpmAtTime
    rw [hfind]
  · intro hnone
    have hfind : segs.find?
        (fun seg => decide (seg.startTime ≤ t) && decide (t < seg.endTime)) = none := by
      rw [List.find?_eq_none]
      intro seg hex
      obtain ⟨⟨i, hi⟩, rfl⟩ := List.mem_iff_get.mp hex
      simpa using hnone i hi
    unfold getBpmAtTime
    rw [hfind, List.getLast?_eq_getLast segs hne]

/-- Counterexample for C4 as stated: a last segment with bpm 0 is falsy in
JS, so past-the-end lookups return 120 instead of the last segment's bpm. -/
theorem getBpmAtTime_fallback_cex :
    getBpmAtTime [⟨0, 1, 0⟩] 5 = 120 ∧
    (([⟨0, 1, 0⟩] : List BpmSegment).getLast (by simp)).bpm = 0 ∧
    (120 : ℚ) ≠ 0 := by
  refine ⟨?_, rfl, by norm_num⟩
  norm_num [getBpmAtTime]

/-- Witness for C4 at concrete inputs: time 9 falls in the second segment of
a two-segment list, whose bpm is 130. -/
theorem getBpmAtTime_total_witness :
    getBpmAtTime [⟨0, 8, 100⟩, ⟨8, 10, 130⟩] 9 = 130 := by
  have h := (getBpmAtTime_total [⟨0, 8, 100⟩, ⟨8, 10, 130⟩] 9 (by simp) (by norm_num)).1 1
    (by norm_num) (by norm_num)
    (fun j hj => by
      have hj0 : j = 0 := by omega
      subst hj0
      norm_num)
  simpa using h

/-- A value already at or above 80 exits the doubling loop immediately. -/
theorem foldUp_eq_self (fuel : ℕ) (q : ℚ) (h : 80 ≤ q) : foldUp fuel q = q := by
  cases fuel <;> simp [foldUp, not_lt.mpr h]

/-- A value at or below 180 exits the halving loop immediately. -/
theorem foldDown_eq_self (fuel : ℕ) (q : ℚ) (h : q ≤ 180) : foldDown fuel q = q := by
  cases fuel <;> simp [foldDown, not_lt.mpr h]

/-- The doubling loop multiplies its input by some power of two. -/
theorem foldUp_pow (fuel : ℕ) : ∀ q : ℚ, ∃ k : ℕ, foldUp fuel q = q * 2 ^ k := by
  induction fuel with
  | zero => exact fun q => ⟨0, by simp [foldUp]⟩
  | succ n ih =>
    intro q
    by_cases h : q < 80
    · obtain ⟨k, hk⟩ := ih (q * 2)
      exact ⟨k + 1, by rw [foldUp, if_pos h, hk]; ring⟩
    · exact ⟨0, by simp [foldUp, h]⟩

/-- With enough iteration budget the doubling loop reaches 80. -/
theorem foldUp_ge (fuel : ℕ) : ∀ q : ℚ, 0 < q → 80 ≤ q * 2 ^ fuel → 80 ≤ foldUp fuel q := by
  induction fuel with
  | zero => intro q _ h; simpa [foldUp] using h
  | succ n ih =>
    intro q hq h
    rw [foldUp]
    by_cases hlt : q < 80
    · rw [if_pos hlt]
      exact ih (q * 2) (by positivity) (by rw [pow_succ] at h; linarith [h])
    · rw [if_neg hlt]
      exact not_lt.mp hlt

/-- The doubling loop never exceeds 160 starting below 160 (each doubling is
applied only below 80). -/
theorem foldUp_lt (fuel : ℕ) : ∀ q : ℚ, 0 < q → q < 160 → foldUp fuel q < 160 := by
  induction fuel with
  | zero => intro q _ h; simpa [foldUp] using h
  | succ n ih =>
    intro q hq h
    rw [foldUp]
    by_cases hlt : q < 80
    · rw [if_pos hlt]
      exact ih (q * 2) (by positivity) (by linarith)
    · rwa [if_neg hlt]

/-- With enough iteration budget the halving loop lands in `[80, 180]` from
any start at or above 80, dividing by some power of two. -/
theorem foldDown_spec (fuel : ℕ) : ∀ q : ℚ, 80 ≤ q → q ≤ 180 * 2 ^ fuel →
    (∃ j : ℕ, foldDown fuel q = q / 2 ^ j) ∧
    80 ≤ foldDown fuel q ∧ foldDown fuel q ≤ 180 := by
  induction fuel with
  | zero =>
    intro q h80 h180
    rw [pow_zero, mul_one] at h180
    exact ⟨⟨0, by simp [foldDown]⟩, by simpa [foldDown] using h80, by simpa [foldDown] using h180⟩
  | succ n ih =>
    intro q h80 h180
    rw [foldDown]
    by_cases hgt : 180 < q
    · rw [if_pos hgt]
      have h1 : 80 ≤ q / 2 := by linarith
      have h2 : q / 2 ≤ 180 * 2 ^ n := by rw [pow_succ] at h180; linarith
      obtain ⟨⟨j, hj⟩, hlo, hhi⟩ := ih (q / 2) h1 h2
      refine ⟨⟨j + 1, ?_⟩, hlo, hhi⟩
      rw [hj, pow_succ]
      ring
    · rw [if_neg hgt]
      exact ⟨⟨0, by simp⟩, h80, not_lt.mp hgt⟩

/-- Every natural is at most `2 ^ n`, in `ℚ`. -/
theorem nat_le_two_pow (n : ℕ) : (n : ℚ) ≤ 2 ^ n := by
  exact_mod_cast (Nat.lt_two_pow n).le

/-- The budget `7 + q.den` suffices for the doubling loop on positive `q`. -/
theorem foldUp_budget (q : ℚ) (hq : 0 < q) : 80 ≤ q * 2 ^ (7 + q.den) := by
  have hden : (0 : ℚ) < (q.den : ℚ) := by exact_mod_cast q.pos
  have hnum : (1 : ℚ) ≤ (q.num : ℚ) := by exact_mod_cast Rat.num_pos.mpr hq
  have hmul : q * (q.den : ℚ) = (q.num : ℚ) := by rw [mul_comm, ← Rat.den_mul_eq_num]
  have h1 : 1 / (q.den : ℚ) ≤ q := by
    rw [div_le_iff₀ hden, hmul]
    exact hnum
  have h2 : (q.den : ℚ) ≤ 2 ^ q.den := nat_le_two_pow q.den
  have h3 : (80 : ℚ) * q.den ≤ 2 ^ (7 + q.den) := by
    rw [pow_add]
    nlinarith [h2]
  have h4 : (80 : ℚ) ≤ 2 ^ (7 + q.den) / q.den := (le_div_iff₀ hden).mpr h3
  have h5 : 1 / (q.den : ℚ) * 2 ^ (7 + q.den) ≤ q * 2 ^ (7 + q.den) :=
    mul_le_mul_of_nonneg_right h1 (by positivity)
  calc (80 : ℚ) ≤ 2 ^ (7 + q.den) / q.den := h4
    _ = 1 / (q.den : ℚ) * 2 ^ (7 + q.den) := by ring
    _ ≤ q * 2 ^ (7 + q.den) := h5

/-- The budget `q.num.toNat` suffices for the halving loop after doubling. -/
theorem foldDown_budget (q : ℚ) (hq : 0 < q) :
    foldUp (7 + q.den) q ≤ 180 * 2 ^ q.num.toNat := by
  have hpos : (1 : ℚ) ≤ 2 ^ q.num.toNat := by exact_mod_cast Nat.one_le_two_pow
  by_cases h : q < 80
  · have := foldUp_lt (7 + q.den) q hq (by linarith)
    nlinarith [this, hpos]
  · rw [foldUp_eq_self _ _ (not_lt.mp h)]
    have hmul : q * (q.den : ℚ) = (q.num : ℚ) := by rw [mul_comm, ← Rat.den_mul_eq_num]
    have hden1 : (1 : ℚ) ≤ (q.den : ℚ) := by exact_mod_cast q.pos
    have hnum : q ≤ (q.num : ℚ) := by
      calc q = q * 1 := (mul_one q).symm
        _ ≤ q * (q.den : ℚ) := mul_le_mul_of_nonneg_left hden1 hq.le
        _ = (q.num : ℚ) := hmul
    have h2 : ((q.num.toNat : ℚ)) ≤ 2 ^ q.num.toNat := nat_le_two_pow _
    have h3 : (q.num : ℚ) = ((q.num.toNat : ℚ)) := by
      exact_mod_cast (Int.toNat_of_nonneg (Rat.num_pos.mpr hq).le).symm
    nlinarith [hnum, h2, h3.le, h3.ge, hpos]

/-- The octave fold of a positive value: some doublings then some halvings,
landing in `[80, 180]`. -/
theorem octaveFold_spec (q : ℚ) (hq : 0 < q) :
    (∃ k j : ℕ, octaveFold q = q * 2 ^ k / 2 ^ j) ∧
    80 ≤ octaveFold q ∧ octaveFold q ≤ 180 := by
  have hup80 := foldUp_ge (7 + q.den) q hq (foldUp_budget q hq)
  obtain ⟨⟨j, hj⟩, hlo, hhi⟩ :=
    foldDown_spec q.num.toNat (foldUp (7 + q.den) q) hup80 (foldDown_budget q hq)
  obtain ⟨k, hk⟩ := foldUp_pow (7 + q.den) q
  refine ⟨⟨k, j, ?_⟩, ?_, ?_⟩
  · rw [octaveFold, hj, hk]
  · rw [octaveFold]; exact hlo
  · rw [octaveFold]; exact hhi

/-- The octave fold is the identity on `[80, 180]`. -/
theorem octaveFold_id (q : ℚ) (h80 : 80 ≤ q) (h180 : q ≤ 180) : octaveFold q = q := by
  rw [octaveFold, foldUp_eq_self _ _ h80, foldDown_eq_self _ _ h180]

/-- Claim C6: octave folding of any positive raw bpm terminates after a
bounded number of doublings and halvings (the result is `q * 2^k / 2^j` for
some finite `k, j`), lands in `[80, 180]`, and is the identity on values
already in `[80, 180]`. -/
theorem octaveFold_correct (q : ℚ) (hq : 0 < q) :
    (∃ k j : ℕ, octaveFold q = q * 2 ^ k / 2 ^ j) ∧
    80 ≤ octaveFold q ∧ octaveFold q ≤ 180 ∧
    (80 ≤ q → q ≤ 180 → octaveFold q = q) := by
  obtain ⟨he, h80, h180⟩ := octaveFold_spec q hq
  exact ⟨he, h80, h180, fun ha hb => octaveFold_id q ha hb⟩

/-- Witness for C6 at the concrete input 50 (a detected half-time tempo). -/
theorem octaveFold_correct_witness :
    (0 : ℚ) < 50 ∧
    ((∃ k j : ℕ, octaveFold 50 = 50 * 2 ^ k / 2 ^ j) ∧
      80 ≤ octaveFold 50 ∧ octaveFold 50 ≤ 180 ∧
      (80 ≤ (50 : ℚ) → (50 : ℚ) ≤ 180 → octaveFold 50 = 50)) :=
  ⟨by norm_num, octaveFold_correct 50 (by norm_num)⟩

/-- The smoothing pass preserves the number of segments. -/
theorem smoothAux_length : ∀ (prev : BpmSegment) (l : List BpmSegment),
    (smoothAux prev l).length = l.length
  | _, [] => rfl
  | _, [_] => rfl
  | prev, a :: b :: rest => by
    simp only [smoothAux, List.length_cons]
    rw [smoothAux_length (smoothStep prev a b) (b :: rest)]
    simp

/-- Pointwise description of the smoothing pass: element `i` is produced by
one `smoothStep` whose left input is the already smoothed element `i - 1`
(the threaded `prev` at `i = 0`) and whose right input is the original
element `i + 1`. -/
theorem smoothAux_getD : ∀ (prev : BpmSegment) (l : List BpmSegment) (i : ℕ),
    i + 1 < l.length →
    (smoothAux prev l).getD i defaultSegment =
      smoothStep (if i = 0 then prev else (smoothAux prev l).getD (i - 1) defaultSegment)
        (l.getD i defaultSegment) (l.getD (i + 1) defaultSegment)
  | _, [], i, h => by simp at h
  | _, [_], i, h => by simp at h
  | prev, a :: b :: rest, 0, _ => by simp [smoothAux]
  | prev, a :: b :: rest, i + 1, h => by
    have ih := smoothAux_getD (smoothStep prev a b) (b :: rest) i (by simpa using h)
    simp only [smoothAux, List.getD_cons_succ]
    rw [ih]
    cases i with
    | zero => simp [smoothAux]
    | succ k => simp [smoothAux, List.getD_cons_succ]

/-- The smoothing pass leaves the final segment unchanged. -/
theorem smoothAux_last : ∀ (prev : BpmSegment) (l : List BpmSegment),
    (smoothAux prev l).getD (l.length - 1) defaultSegment =
      l.getD (l.length - 1) defaultSegment
  | _, [] => rfl
  | _, [_] => rfl
  | prev, a :: b :: rest => by
    have ih := smoothAux_last (smoothStep prev a b) (b :: rest)
    simp only [smoothAux, List.length_cons]
    simpa [List.getD_cons_succ] using ih

/-- Claim C7: smoothing is a single non-iterative pass: lists of length at
most 2 are unchanged; length, the first and the last segment are preserved;
and every interior segment is produced by exactly one `smoothStep` — replaced
by the rounded neighbor average when its bpm deviates from that average by
more than 10 — whose left neighbor is the already processed element `i - 1`
and whose right neighbor is the original element `i + 1`, so an adjustment
never triggers re-adjustment of an already processed segment. -/
theorem smoothSegments_single_pass (segs : List BpmSegment) :
    (segs.length ≤ 2 → smoothSegments segs = segs) ∧
    (smoothSegments segs).length = segs.length ∧
    (smoothSegments segs).getD 0 defaultSegment = segs.getD 0 defaultSegment ∧
    (smoothSegments segs).getD (segs.length - 1) defaultSegment =
      segs.getD (segs.length - 1) defaultSegment ∧
    (∀ i : ℕ, 0 < i → i + 1 < segs.length →
      (smoothSegments segs).getD i defaultSegment =
        smoothStep ((smoothSegments segs).getD (i - 1) defaultSegment)
          (segs.getD i defaultSegment) (segs.getD (i + 1) defaultSegment)) := by
  by_cases hle : segs.length ≤ 2
  · refine ⟨fun _ => by simp [smoothSegments, hle], ?_, ?_, ?_, ?_⟩
    · simp [smoothSegments, hle]
    · simp [smoothSegments, hle]
    · simp [smoothSegments, hle]
    · intro i h0 hlt
      omega
  · obtain ⟨a, rest⟩ : ∃ a rest, segs = a :: rest := by
      cases segs with
      | nil => simp at hle
      | cons a rest => exact ⟨a, rest, rfl⟩
    obtain ⟨rest, rfl⟩ := rest
    have hsm : smoothSegments (a :: rest) = a :: smoothAux a rest := by
      rw [smoothSegments, if_neg hle]
    refine ⟨fun h => absurd h hle, ?_, ?_, ?_, ?_⟩
    · rw [hsm]
      simp [smoothAux_length]
    · rw [hsm]
      simp
    · rw [hsm]
      have hlen : (a :: rest).length - 1 = rest.length - 1 + 1 := by
        simp only [List.length_cons] at hle ⊢
        omega
      rw [hlen, List.getD_cons_succ, List.getD_cons_succ]
      exact smoothAux_last a rest
    · intro i h0 hlt
      obtain ⟨k, rfl⟩ : ∃ k, i = k + 1 := ⟨i - 1, by omega⟩
      rw [hsm]
      have hk : k + 1 < rest.length := by simpa using hlt
      rw [List.getD_cons_succ, smoothAux_getD a rest k hk]
      cases k with
      | zero => simp
      | succ m => simp [List.getD_cons_succ]

/-- Witness for C7 at concrete inputs: the interior segment of a 3-segment
list deviating by 60 from the neighbor average 100 is replaced. -/
theorem smoothSegments_single_pass_witness :
    (smoothSegments [⟨0, 8, 100⟩, ⟨8, 16, 160⟩, ⟨16, 24, 100⟩]).getD 1 defaultSegment =
      smoothStep
        ((smoothSegments [⟨0, 8, 100⟩, ⟨8, 16, 160⟩, ⟨16, 24, 100⟩]).getD 0 defaultSegment)
        ⟨8, 16, 160⟩ ⟨16, 24, 100⟩ := by
  have h := (smoothSegments_single_pass [⟨0, 8, 100⟩, ⟨8, 16, 160⟩, ⟨16, 24, 100⟩]).2.2.2.2 1
    (by norm_num) (by norm_num)
  simpa using h

/-- There is one inter-peak interval fewer than there are peaks. -/
theorem consecDiffs_length : ∀ l : List ℚ, (consecDiffs l).length = l.length - 1
  | [] => rfl
  | [_] => rfl
  | a :: b :: rest => by
    simp only [consecDiffs, List.length_cons]
    rw [consecDiffs_length (b :: rest)]
    simp

/-- Strictly increasing peaks have positive inter-peak intervals. -/
theorem consecDiffs_pos : ∀ l : List ℚ, l.Pairwise (· < ·) → ∀ x ∈ consecDiffs l, 0 < x
  | [], _, x, hx => by simp [consecDiffs] at hx
  | [_], _, x, hx => by simp [consecDiffs] at hx
  | a :: b :: rest, hp, x, hx => by
    rw [consecDiffs] at hx
    rcases List.mem_cons.mp hx with h | h
    · have hab : a < b := (List.pairwise_cons.mp hp).1 b (by simp)
      rw [h]
      linarith
    · exact consecDiffs_pos (b :: rest) (List.pairwise_cons.mp hp).2 x h

/-- Rounding keeps a value of `[80, 180]` inside `[80, 180]` (the bounds are
integers). -/
theorem jsRound_range (x : ℚ) (hlo : 80 ≤ x) (hhi : x ≤ 180) :
    80 ≤ ((jsRound x : ℤ) : ℚ) ∧ ((jsRound x : ℤ) : ℚ) ≤ 180 := by
  have h1 : (80 : ℤ) ≤ jsRound x := by
    rw [jsRound, Int.le_floor]
    push_cast
    linarith
  have h2 : jsRound x ≤ (180 : ℤ) := by
    rw [jsRound]
    have : (⌊x + 1 / 2⌋ : ℤ) < 181 := by
      rw [Int.floor_lt]
      push_cast
      linarith
    omega
  constructor
  · exact_mod_cast h1
  · exact_mod_cast h2

/-- One window estimate stays in `[80, 180]` when the window's peaks are
strictly increasing and the inherited previous bpm is in range. -/
theorem segmentBpmEstimate_range (segmentPeaks : List ℚ) (prevBpm : ℚ)
    (hp : segmentPeaks.Pairwise (· < ·)) (hlo : 80 ≤ prevBpm) (hhi : prevBpm ≤ 180) :
    80 ≤ segmentBpmEstimate segmentPeaks prevBpm ∧ segmentBpmEstimate segmentPeaks prevBpm ≤ 180 := by
  rw [segmentBpmEstimate]
  by_cases hlen : segmentPeaks.length < 2
  · rw [if_pos hlen]
    exact ⟨hlo, hhi⟩
  · rw [if_neg hlen]
    have hnil : consecDiffs segmentPeaks ≠ [] := by
      have := consecDiffs_length segmentPeaks
      intro hcon
      rw [hcon] at this
      simp at this
      omega
    set intervals := consecDiffs segmentPeaks with hintervals
    set sorted := intervals.insertionSort (· ≤ ·) with hsorted
    have hperm : sorted.Perm intervals := List.perm_insertionSort (· ≤ ·) intervals
    have hlen2 : sorted.length = intervals.length := hperm.length_eq
    have hpos : 0 < sorted.length := by
      rw [hlen2]
      exact List.length_pos.mpr hnil
    have hidx : sorted.length / 2 < sorted.length := Nat.div_lt_self hpos (by norm_num)
    have hmem : sorted.getD (sorted.length / 2) 0 ∈ intervals := by
      rw [List.getD_eq_getElem sorted 0 hidx]
      exact hperm.mem_iff.mp (List.getElem_mem hidx)
    have hmedpos : 0 < sorted.getD (sorted.length / 2) 0 :=
      consecDiffs_pos segmentPeaks hp _ hmem
    have hraw : 0 < 60 / sorted.getD (sorted.length / 2) 0 := by positivity
    obtain ⟨_, h80, h180⟩ := octaveFold_spec (60 / sorted.getD (sorted.length / 2) 0) hraw
    exact jsRound_range _ h80 h180

/-- The windows produced by `buildSegments` are `[8i, min(8(i+1), d))`, one
per requested window index, independently of the peak data. -/
theorem buildSegments_times (peaks : List ℚ) (d : ℚ) :
    ∀ (idxs : List ℕ) (prevBpm : ℚ),
      (buildSegments peaks d idxs prevBpm).map (fun seg => (seg.startTime, seg.endTime)) =
        idxs.map (fun i : ℕ => ((i : ℚ) * 8, min (((i : ℚ) + 1) * 8) d))
  | [], _ => rfl
  | i :: rest, prevBpm => by
    simp only [buildSegments, List.map_cons]
    rw [buildSegments_times peaks d rest]

/-- `buildSegments` produces one segment per requested window index. -/
theorem buildSegments_length (peaks : List ℚ) (d : ℚ) (idxs : List ℕ) (prevBpm : ℚ) :
    (buildSegments peaks d idxs prevBpm).length = idxs.length := by
  have := congrArg List.length (buildSegments_times peaks d idxs prevBpm)
  simpa using this

/-- With strictly increasing peaks and an in-range inherited bpm, every
window bpm from `buildSegments` lies in `[80, 180]`. -/
theorem buildSegments_bpm_range (peaks : List ℚ) (d : ℚ) (hp : peaks.Pairwise (· < ·)) :
    ∀ (idxs : List ℕ) (prevBpm : ℚ), 80 ≤ prevBpm → prevBpm ≤ 180 →
      ∀ seg ∈ buildSegments peaks d idxs prevBpm, 80 ≤ seg.bpm ∧ seg.bpm ≤ 180
  | [], _, _, _, seg, hseg => by simp [buildSegments] at hseg
  | i :: rest, prevBpm, hlo, hhi, seg, hseg => by
    rw [buildSegments] at hseg
    have hfilter : (peaks.filter (fun p =>
        decide ((i : ℚ) * 8 ≤ p) && decide (p < min (((i : ℚ) + 1) * 8) d))).Pairwise (· < ·) :=
      hp.sublist (List.filter_sublist peaks)
    have hrange := segmentBpmEstimate_range _ prevBpm hfilter hlo hhi
    rcases List.mem_cons.mp hseg with h | h
    · rw [h]
      exact hrange
    · exact buildSegments_bpm_range peaks d hp rest _ hrange.1 hrange.2 seg h

/-- `smoothStep` does not touch the window boundaries. -/
theorem smoothStep_times (prev curr next : BpmSegment) :
    (smoothStep prev curr next).startTime = curr.startTime ∧
    (smoothStep prev curr next).endTime = curr.endTime := by
  rw [smoothStep]
  split <;> simp

/-- The smoothing pass does not touch the window boundaries. -/
theorem smoothAux_times : ∀ (prev : BpmSegment) (l : List BpmSegment),
    (smoothAux prev l).map (fun seg => (seg.startTime, seg.endTime)) =
      l.map (fun seg => (seg.startTime, seg.endTime))
  | _, [] => rfl
  | _, [_] => rfl
  | prev, a :: b :: rest => by
    simp only [smoothAux, List.map_cons]
    rw [smoothAux_times (smoothStep prev a b) (b :: rest)]
    simp [(smoothStep_times prev a b).1, (smoothStep_times prev a b).2]

/-- `smoothSegments` does not touch the window boundaries. -/
theorem smoothSegments_times (l : List BpmSegment) :
    (smoothSegments l).map (fun seg => (seg.startTime, seg.endTime)) =
      l.map (fun seg => (seg.startTime, seg.endTime)) := by
  rw [smoothSegments.eq_def]
  split
  · rfl
  · split
    · rfl
    · simp only [List.map_cons]
      rw [smoothAux_times]

/-- `smoothStep` keeps in-range bpms in range: a replaced bpm is the rounded
average of two in-range neighbors. -/
theorem smoothStep_bpm_range (prev curr next : BpmSegment)
    (hprev : 80 ≤ prev.bpm ∧ prev.bpm ≤ 180) (hcurr : 80 ≤ curr.bpm ∧ curr.bpm ≤ 180)
    (hnext : 80 ≤ next.bpm ∧ next.bpm ≤ 180) :
    80 ≤ (smoothStep prev curr next).bpm ∧ (smoothStep prev curr next).bpm ≤ 180 := by
  rw [smoothStep]
  split
  · exact jsRound_range _ (by obtain ⟨h1, _⟩ := hprev; obtain ⟨h3, _⟩ := hnext; linarith)
      (by obtain ⟨_, h2⟩ := hprev; obtain ⟨_, h4⟩ := hnext; linarith)
  · exact hcurr

/-- The smoothing pass keeps in-range bpms in range. -/
theorem smoothAux_bpm_range : ∀ (prev : BpmSegment) (l : List BpmSegment),
    (80 ≤ prev.bpm ∧ prev.bpm ≤ 180) → (∀ seg ∈ l, 80 ≤ seg.bpm ∧ seg.bpm ≤ 180) →
    ∀ seg ∈ smoothAux prev l, 80 ≤ seg.bpm ∧ seg.bpm ≤ 180
  | _, [], _, _, seg, hseg => by simp [smoothAux] at hseg
  | _, [x], _, hl, seg, hseg => by
    rw [smoothAux] at hseg
    rw [List.mem_singleton.mp hseg]
    exact hl x (by simp)
  | prev, a :: b :: rest, hprev, hl, seg, hseg => by
    rw [smoothAux] at hseg
    have hstep := smoothStep_bpm_range prev a b hprev (hl a (by simp)) (hl b (by simp))
    rcases List.mem_cons.mp hseg with h | h
    · rw [h]
      exact hstep
    · exact smoothAux_bpm_range (smoothStep prev a b) (b :: rest) hstep
        (fun x hx => hl x (List.mem_cons_of_mem a hx)) seg h

/-- `smoothSegments` keeps in-range bpms in range. -/
theorem smoothSegments_bpm_range (l : List BpmSegment)
    (hl : ∀ seg ∈ l, 80 ≤ seg.bpm ∧ seg.bpm ≤ 180) :
    ∀ seg ∈ smoothSegments l, 80 ≤ seg.bpm ∧ seg.bpm ≤ 180 := by
  rw [smoothSegments.eq_def]
  split
  · exact hl
  · match l, hl with
    | [], hl => exact hl
    | first :: rest, hl =>
      intro seg hseg
      rcases List.mem_cons.mp hseg with h | h
      · rw [h]
        exact hl first (by simp)
      · exact smoothAux_bpm_range first rest (hl first (by simp))
          (fun x hx => hl x (List.mem_cons_of_mem first hx)) seg h

/-- Claim C3 (amended): for every strictly increasing peak list — as the peak
detector produces, enforcing ≥200ms spacing — and every positive duration,
the segment list covers `[0, duration)` contiguously: it is non-empty, starts
at 0, ends at the duration, adjacent segments meet exactly, every segment is
non-degenerate (`startTime < endTime`), segments are ordered by `startTime`,
and every bpm lies in `[80, 180]`. -/
theorem analyzeBpmSegments_partition (peaks : List ℚ) (d : ℚ) (hd : 0 < d)
    (hp : peaks.Pairwise (· < ·)) :
    analyzeBpmSegments peaks d ≠ [] ∧
    ((analyzeBpmSegments peaks d).getD 0 defaultSegment).startTime = 0 ∧
    ((analyzeBpmSegments peaks d).getD ((analyzeBpmSegments peaks d).length - 1)
      defaultSegment).endTime = d ∧
    (analyzeBpmSegments peaks d).Chain' (fun a b => a.endTime = b.startTime) ∧
    (∀ seg ∈ analyzeBpmSegments peaks d, seg.startTime < seg.endTime) ∧
    (analyzeBpmSegments peaks d).Pairwise (fun a b => a.startTime < b.startTime) ∧
    (∀ seg ∈ analyzeBpmSegments peaks d, 80 ≤ seg.bpm ∧ seg.bpm ≤ 180) := by
  set segs := analyzeBpmSegments peaks d with hsegs
  set n := numSegments d with hn
  have hceil_pos : 0 < ⌈d / 8⌉ := Int.ceil_pos.mpr (by positivity)
  have hn1 : 1 ≤ n := le_max_left 1 _
  have hntoNat : n = (⌈d / 8⌉).toNat := by
    rw [hn, numSegments]
    omega
  have hcast : ((n : ℤ) : ℚ) = ((⌈d / 8⌉ : ℤ) : ℚ) := by
    rw [hntoNat]
    congr 1
    omega
  have hA : d ≤ 8 * (n : ℚ) := by
    have h1 : d / 8 ≤ ((⌈d / 8⌉ : ℤ) : ℚ) := Int.le_ceil (d / 8)
    have h2 : ((n : ℕ) : ℚ) = ((n : ℤ) : ℚ) := by push_cast; ring
    rw [h2, hcast]
    linarith
  have hB : ∀ i : ℕ, i < n → 8 * (i : ℚ) < d := by
    intro i hi
    have h1 : ((⌈d / 8⌉ : ℤ) : ℚ) < d / 8 + 1 := Int.ceil_lt_add_one (d / 8)
    have h2 : (i : ℚ) + 1 ≤ ((n : ℤ) : ℚ) := by
      push_cast
      exact_mod_cast Nat.succ_le_of_lt hi
    rw [hcast] at h2
    linarith
  have hmap : segs.map (fun seg => (seg.startTime, seg.endTime)) =
      (List.range n).map (fun i : ℕ => ((i : ℚ) * 8, min (((i : ℚ) + 1) * 8) d)) := by
    rw [hsegs, analyzeBpmSegments, smoothSegments_times, buildSegments_times]
  have hlen : segs.length = n := by
    have := congrArg List.length hmap
    simpa using this
  have hne : segs ≠ [] := by
    have : 0 < segs.length := by omega
    exact List.length_pos.mp this
  have htimes : ∀ (i : ℕ) (hi : i < segs.length),
      segs[i].startTime = (i : ℚ) * 8 ∧
      segs[i].endTime = min (((i : ℚ) + 1) * 8) d := by
    intro i hi
    have h1 := congrArg (fun l => l[i]?) hmap
    simp only [List.getElem?_map] at h1
    rw [List.getElem?_eq_getElem hi, List.getElem?_range (show i < n by omega)] at h1
    simp only [Option.map_some'] at h1
    have h2 : (segs[i].startTime, segs[i].endTime) =
        ((i : ℚ) * 8, min (((i : ℚ) + 1) * 8) d) := by
      exact Option.some.inj h1
    exact ⟨congrArg Prod.fst h2, congrArg Prod.snd h2⟩
  refine ⟨hne, ?_, ?_, ?_, ?_, ?_, ?_⟩
  · rw [List.getD_eq_getElem segs defaultSegment (show 0 < segs.length by omega)]
    rw [(htimes 0 (by omega)).1]
    norm_num
  · rw [List.getD_eq_getElem segs defaultSegment (show segs.length - 1 < segs.length by omega)]
    rw [(htimes (segs.length - 1) (by omega)).2]
    have hcastn : ((segs.length - 1 : ℕ) : ℚ) + 1 = (n : ℚ) := by
      rw [hlen]
      have h1 : ((n - 1 : ℕ) : ℚ) = (n : ℚ) - 1 := by
        push_cast [hn1]
        ring
      rw [h1]
      ring
    rw [hcastn]
    have h8 : (n : ℚ) * 8 = 8 * (n : ℚ) := by ring
    rw [h8]
    exact min_eq_right hA
  · rw [List.chain'_iff_get]
    intro i hilt
    simp only [List.get_eq_getElem]
    have hi : i < segs.length := by omega
    have hi1 : i + 1 < segs.length := by omega
    show segs[i].endTime = segs[i + 1].startTime
    rw [(htimes i hi).2, (htimes (i + 1) hi1).1]
    have hstep : ((i : ℚ) + 1) * 8 ≤ d := by
      have := hB (i + 1) (by omega)
      push_cast at this
      linarith
    rw [min_eq_left hstep]
    push_cast
    ring
  · intro seg hseg
    obtain ⟨i, hi, rfl⟩ := List.getElem_of_mem hseg
    rw [(htimes i hi).1, (htimes i hi).2]
    have h1 : (i : ℚ) * 8 < ((i : ℚ) + 1) * 8 := by linarith
    have h2 : (i : ℚ) * 8 < d := by
      have := hB i (by omega)
      linarith
    exact lt_min h1 h2
  · rw [List.pairwise_iff_getElem]
    intro i j hi hj hij
    rw [(htimes i hi).1, (htimes j hj).1]
    have : (i : ℚ) < (j : ℚ) := by exact_mod_cast hij
    linarith
  · rw [hsegs, analyzeBpmSegments]
    exact smoothSegments_bpm_range _
      (buildSegments_bpm_range peaks d hp _ 120 (by norm_num) (by norm_num))

/-- Counterexample for C3 as stated ("for every peak list"): three coincident
peaks give a zero median inter-peak interval, the raw bpm `60 / 0` never
reaches `[80, 180]` (in the source the folding loop spins forever on the
infinite raw bpm; the budgeted model returns the out-of-range value 0). -/
theorem analyzeBpmSegments_range_cex :
    ∃ seg ∈ analyzeBpmSegments [0, 0, 0] 1, ¬(80 ≤ seg.bpm ∧ seg.bpm ≤ 180) := by
  have hns : numSegments 1 = 1 := by
    have h8 : (⌈(1 : ℚ) / 8⌉ : ℤ) = 1 := by
      rw [Int.ceil_eq_iff]
      norm_num
    rw [numSegments, h8]
    rfl
  have h : analyzeBpmSegments [0, 0, 0] 1 = [⟨0, 1, 0⟩] := by
    rw [analyzeBpmSegments, hns]
    norm_num [buildSegments, segmentBpmEstimate,
      consecDiffs, smoothSegments, octaveFold, foldUp, foldDown, jsRound,
      List.insertionSort, List.orderedInsert, List.range_succ, List.range_zero]
  rw [h]
  refine ⟨⟨0, 1, 0⟩, by simp, ?_⟩
  norm_num

/-- Witness for C3 at concrete inputs: no peaks over a 4-second duration give
the single default-120 segment, which satisfies every clause. -/
theorem analyzeBpmSegments_partition_witness :
    analyzeBpmSegments [] 4 ≠ [] ∧
    (∀ seg ∈ analyzeBpmSegments [] 4, 80 ≤ seg.bpm ∧ seg.bpm ≤ 180) := by
  have h := analyzeBpmSegments_partition [] 4 (by norm_num) (by simp)
  exact ⟨h.1, h.2.2.2.2.2.2⟩

/-- The source's `reduce((sum, seg) => sum + seg.bpm, 0)` is the sum of the
bpm values. -/
theorem foldl_add_bpm : ∀ (l : List BpmSegment) (a : ℚ),
    l.foldl (fun sum seg => sum + seg.bpm) a = a + (l.map (fun seg => seg.bpm)).sum
  | [], a => by simp
  | x :: rest, a => by
    simp only [List.foldl_cons, List.map_cons, List.sum_cons]
    rw [foldl_add_bpm rest (a + x.bpm)]
    ring

/-- The analyzer always produces exactly one segment per 8-second window. -/
theorem analyzeBpmSegments_length (peaks : List ℚ) (d : ℚ) :
    (analyzeBpmSegments peaks d).length = numSegments d := by
  rw [analyzeBpmSegments]
  have h1 := congrArg List.length
    (smoothSegments_times (buildSegments peaks d (List.range (numSegments d)) 120))
  simp only [List.length_map] at h1
  rw [h1, buildSegments_length]
  simp

/-- Claim C5: for every analysis result (produced from any peak list and
positive duration, hence with a non-empty segment list), `averageBpm` is the
rounded unweighted arithmetic mean of the segment bpm values — the sum of the
bpms divided by the number of segments, with no time-weighting by segment
duration. -/
theorem averageBpm_unweighted (peaks : List ℚ) (d off : ℚ) (hd : 0 < d) :
    (analyzeBpmFromPeaks peaks d off).segments.length ≠ 0 ∧
    (analyzeBpmFromPeaks peaks d off).averageBpm =
      ((jsRound (((analyzeBpmFromPeaks peaks d off).segments.map (fun seg => seg.bpm)).sum /
        ((analyzeBpmFromPeaks peaks d off).segments.length : ℚ)) : ℤ) : ℚ) := by
  constructor
  · have hlen : (analyzeBpmFromPeaks peaks d off).segments.length = numSegments d :=
      analyzeBpmSegments_length peaks d
    have h1 := le_max_left 1 (Int.toNat ⌈d / 8⌉)
    rw [hlen, numSegments]
    omega
  · rw [analyzeBpmFromPeaks]
    simp only []
    rw [foldl_add_bpm]
    rw [zero_add]

/-- Witness for C5 at concrete inputs: no peaks over a 4-second duration. -/
theorem averageBpm_unweighted_witness :
    (analyzeBpmFromPeaks [] 4 0).segments.length ≠ 0 ∧
    (analyzeBpmFromPeaks [] 4 0).averageBpm =
      ((jsRound (((analyzeBpmFromPeaks [] 4 0).segments.map (fun seg => seg.bpm)).sum /
        ((analyzeBpmFromPeaks [] 4 0).segments.length : ℚ)) : ℤ) : ℚ) :=
  averageBpm_unweighted [] 4 0 (by norm_num)
